import Mathlib

/-!
# Verification of the `nifty_comparision` portfolio pipeline

Shallow embedding of the parts of the repository that the frozen claims
are about:

* `smart_calculator.py` — `calculate_portfolio_with_partial_data`,
  `calculate_coverage_stats`;
* `ticker_resolver.py` — `clean_security_name`, `try_ticker_variations`,
  `find_working_ticker`, `resolve_all_tickers`;
* `nse_equity_matcher.py` — `clean_company_name`, `similarity_score`,
  `load_nse_equity_list`, `find_best_match`;
* `data_loader.py` — `load_holdings_data`;
* `market_data.py` — `fetch_stock_historical_data`;
* `investment_calculator.py` — `get_april_2024_price`,
  `calculate_investment_values`.

Modelling conventions:

* pandas `Series` indexed by dates become `List (Int × ℚ)` (date, value)
  pairs, kept in index order; a date grid is a `List Int`.  Monetary
  amounts and prices are `ℚ`.
* A pandas `DataFrame` of holdings becomes a `List HoldingRow` in row
  order.  `groupby('NAME')` becomes filtering by investor name; the
  per-investor dictionary returned by the Python code becomes a function
  from the investor name to that investor's series.
* `dict` objects keyed by strings become association lists
  `List (String × _)` looked up front-to-back (Python dicts iterate in
  insertion order, and lookups of distinct keys agree with front-to-back
  search).
* Fallible library calls (reading a spreadsheet, a network fetch) are
  modelled by an `Except String _` argument holding either the value the
  library produced or the exception it raised; functions that may raise
  return `Except String _`.
* Floating point arithmetic is modelled by `ℚ`.  All quantities that the
  claims compare are either exact in binary floating point at the inputs
  used or compared for equality of identical expressions, so the
  rational model is faithful for the statements proved here.
-/

set_option linter.unusedVariables false

namespace NiftyComparision

/-- One row of the holdings spreadsheet after loading: the `NAME`
(investor), `Security Name`, `Holding` (quantity) and
`Demat Holding Vlaue (Rs.)` (current value) columns. -/
structure HoldingRow where
  name : String
  security : String
  holding : ℚ
  value : ℚ
  deriving Repr, DecidableEq

/-- A price series: (date, price) pairs in index order. -/
abbrev PriceSeries := List (Int × ℚ)

/-- The `stock_data` dictionary: security name → price series,
as an association list in insertion order. -/
abbrev StockData := List (String × PriceSeries)

/-- Front-to-back association-list lookup, the shallow embedding of a
Python `dict` lookup / `in` test. -/
def alookup {α : Type} (d : List (String × α)) (k : String) : Option α :=
  (d.find? (fun p => p.1 = k)).map (·.2)

/-- `security in stock_data` / `isin(stock_data.keys())`. -/
def hasData (sd : StockData) (sec : String) : Bool :=
  (alookup sd sec).isSome

/-- `prices.reindex(dates, method='ffill')` evaluated at one grid date:
the price at the last index position whose date is `≤ d` (for the
monotone indices pandas requires this is the greatest such date), `none`
(NaN) when no index date is `≤ d`. -/
def ffillAt (ps : PriceSeries) (d : Int) : Option ℚ :=
  ((ps.filter (fun p => p.1 ≤ d)).getLast?).map (·.2)

/-- One grid entry of `(aligned_prices * holding_qty).fillna(0)`:
the forward-filled price times the quantity, `0` where the forward fill
left NaN. -/
def alignedValue (ps : PriceSeries) (qty : ℚ) (d : Int) : ℚ :=
  match ffillAt ps d with
  | some p => p * qty
  | none => 0

/-- One iteration of the `for _, row in holdings_with_data.iterrows()`
loop of `calculate_portfolio_with_partial_data`: add the stock's aligned
value series to the accumulator series (`portfolio_with_data +=
stock_value.fillna(0)`).  The `match` embeds the (always-true on the
filtered rows) `if security in stock_data` guard. -/
def addStockValue (sd : StockData) (dates : List Int) (acc : List ℚ)
    (h : HoldingRow) : List ℚ :=
  match alookup sd h.security with
  | some prices => List.zipWith (· + ·) acc (dates.map (alignedValue prices h.holding))
  | none => acc

/-- `group = holdings_df.groupby('NAME')` : the rows of one investor, in
row order. -/
def investorGroup (holdings : List HoldingRow) (inv : String) : List HoldingRow :=
  holdings.filter (fun h => h.name = inv)

/-- `holdings_with_data = group[group['Security Name'].isin(stock_data.keys())]`. -/
def holdingsWithData (sd : StockData) (grp : List HoldingRow) : List HoldingRow :=
  grp.filter (fun h => hasData sd h.security)

/-- `holdings_without_data = group[~group['Security Name'].isin(stock_data.keys())]`. -/
def holdingsWithoutData (sd : StockData) (grp : List HoldingRow) : List HoldingRow :=
  grp.filter (fun h => ¬ hasData sd h.security)

/-- The covered portion of an investor's portfolio: the value of
`portfolio_with_data` after the first loop of
`calculate_portfolio_with_partial_data` (initialised to
`pd.Series(0.0, index=dates)`). -/
def coveredSeries (holdings : List HoldingRow) (sd : StockData)
    (dates : List Int) (inv : String) : List ℚ :=
  (holdingsWithData sd (investorGroup holdings inv)).foldl
    (addStockValue sd dates) (dates.map (fun _ => (0 : ℚ)))

/-- `current_value_without_data = holdings_without_data['Demat Holding
Vlaue (Rs.)'].sum()`. -/
def uncoveredValueSum (holdings : List HoldingRow) (sd : StockData)
    (inv : String) : ℚ :=
  ((holdingsWithoutData sd (investorGroup holdings inv)).map (·.value)).sum

/-- `current_value_with_data = holdings_with_data['Demat Holding
Vlaue (Rs.)'].sum()`. -/
def coveredValueSum (holdings : List HoldingRow) (sd : StockData)
    (inv : String) : ℚ :=
  ((holdingsWithData sd (investorGroup holdings inv)).map (·.value)).sum

/-- `calculate_portfolio_with_partial_data` (smart_calculator.py),
curried at one investor name: the series stored under that investor in
the returned dictionary.  After the covered loop, when some holdings
lack price data and the guard `current_value_with_data > 0 and
len(portfolio_with_data) > 0` holds, the estimate
`current_value_without_data * (portfolio_with_data /
portfolio_with_data.iloc[0])` is added pointwise. -/
def calculate_portfolio_with_partial_data (holdings : List HoldingRow)
    (sd : StockData) (dates : List Int) (inv : String) : List ℚ :=
  if 0 < (holdingsWithoutData sd (investorGroup holdings inv)).length then
    if 0 < coveredValueSum holdings sd inv ∧
        0 < (coveredSeries holdings sd dates inv).length then
      List.zipWith (· + ·) (coveredSeries holdings sd dates inv)
        ((coveredSeries holdings sd dates inv).map
          (fun x => uncoveredValueSum holdings sd inv *
            (x / (coveredSeries holdings sd dates inv).headI)))
    else coveredSeries holdings sd dates inv
  else coveredSeries holdings sd dates inv

/-- The per-grid-date contribution of one covered holding, used to state
the claims about the covered series. -/
def contribAt (sd : StockData) (d : Int) (h : HoldingRow) : ℚ :=
  match alookup sd h.security with
  | some prices => alignedValue prices h.holding d
  | none => 0

theorem addStockValue_length (sd : StockData) (dates : List Int)
    (acc : List ℚ) (h : HoldingRow) (hlen : acc.length = dates.length) :
    (addStockValue sd dates acc h).length = dates.length := by
  unfold addStockValue
  cases alookup sd h.security with
  | none => simpa using hlen
  | some prices => simp [List.length_zipWith, hlen]

theorem foldl_addStockValue_length (sd : StockData) (dates : List Int)
    (L : List HoldingRow) (acc : List ℚ) (hlen : acc.length = dates.length) :
    (L.foldl (addStockValue sd dates) acc).length = dates.length := by
  induction L generalizing acc with
  | nil => simpa using hlen
  | cons h t ih => exact ih _ (addStockValue_length sd dates acc h hlen)

theorem coveredSeries_length (holdings : List HoldingRow) (sd : StockData)
    (dates : List Int) (inv : String) :
    (coveredSeries holdings sd dates inv).length = dates.length := by
  unfold coveredSeries
  exact foldl_addStockValue_length sd dates _ _ (by simp)

theorem addStockValue_get (sd : StockData) (dates : List Int)
    (acc : List ℚ) (h : HoldingRow) (hlen : acc.length = dates.length)
    (i : ℕ) (hi : i < dates.length) :
    (addStockValue sd dates acc h).getD i 0 =
      acc.getD i 0 + contribAt sd (dates.getD i 0) h := by
  unfold addStockValue contribAt
  cases alookup sd h.security with
  | none => simp
  | some prices =>
      have hia : i < acc.length := hlen ▸ hi
      have him : i < (dates.map (alignedValue prices h.holding)).length := by
        simpa using hi
      rw [List.getD_eq_getElem _ _ (by simp [List.length_zipWith, hlen, hi] : i < (List.zipWith (· + ·) acc (dates.map (alignedValue prices h.holding))).length)]
      rw [List.getElem_zipWith]
      rw [List.getD_eq_getElem _ _ hia, List.getD_eq_getElem _ _ hi]
      simp

theorem foldl_addStockValue_get (sd : StockData) (dates : List Int)
    (L : List HoldingRow) (acc : List ℚ) (hlen : acc.length = dates.length)
    (i : ℕ) (hi : i < dates.length) :
    (L.foldl (addStockValue sd dates) acc).getD i 0 =
      acc.getD i 0 + (L.map (contribAt sd (dates.getD i 0))).sum := by
  induction L generalizing acc with
  | nil => simp
  | cons h t ih =>
      have := ih (addStockValue sd dates acc h)
        (addStockValue_length sd dates acc h hlen)
      rw [List.foldl_cons, this, addStockValue_get sd dates acc h hlen i hi]
      simp [add_assoc]

/-- **C1.** The covered portion of the portfolio value series produced by
`calculate_portfolio_with_partial_data` equals, at each grid date, the
sum over the investor's holdings that have a price series of quantity
times the forward-filled price, with dates where no forward-filled price
exists contributing 0. -/
theorem covered_series_is_sum_of_aligned_values
    (holdings : List HoldingRow) (sd : StockData) (dates : List Int)
    (inv : String) (i : ℕ) (hi : i < dates.length) :
    (coveredSeries holdings sd dates inv).getD i 0 =
      ((holdingsWithData sd (investorGroup holdings inv)).map
        (contribAt sd (dates.getD i 0))).sum := by
  unfold coveredSeries
  rw [foldl_addStockValue_get sd dates _ _ (by simp) i hi]
  simp

theorem headI_eq_getD (l : List ℚ) (hl : l ≠ []) : l.headI = l.getD 0 0 := by
  cases l with
  | nil => exact absurd rfl hl
  | cons a t => simp

theorem sum_pos_of_mem {l : List ℚ} (hnn : ∀ x ∈ l, 0 ≤ x)
    (x : ℚ) (hx : x ∈ l) (hpos : 0 < x) : 0 < l.sum := by
  induction l with
  | nil => cases hx
  | cons y t ih =>
      rw [List.sum_cons]
      rcases List.mem_cons.mp hx with h | h
      · have ht : 0 ≤ t.sum :=
          List.sum_nonneg (fun z hz => hnn z (List.mem_cons_of_mem y hz))
        calc (0 : ℚ) < x := hpos
          _ = y + 0 := by rw [h, add_zero]
          _ ≤ y + t.sum := by linarith
      · have hy : 0 ≤ y := hnn y (List.mem_cons_self y t)
        have := ih (fun z hz => hnn z (List.mem_cons_of_mem y hz)) h
        linarith

/-- Witness for C1 at a concrete input. -/
theorem covered_series_is_sum_of_aligned_values_witness :
    (coveredSeries [⟨"A", "X", 2, 100⟩] [("X", [(0, 5)])] [0, 1] "A").getD 1 0 =
      ((holdingsWithData [("X", [(0, 5)])] (investorGroup [⟨"A", "X", 2, 100⟩] "A")).map
        (contribAt [("X", [(0, 5)])] ([0, 1].getD 1 0))).sum :=
  covered_series_is_sum_of_aligned_values [⟨"A", "X", 2, 100⟩]
    [("X", [(0, 5)])] [0, 1] "A" 1 (by decide)

/-- **C2.** For an investor with at least one holding without price data
and a positive summed current value of the covered holdings, the final
series equals the covered series plus the uncovered holdings' summed
current value scaled, at each grid date, by the covered series' value at
that date divided by its value at the first grid date. -/
theorem final_series_adds_scaled_uncovered_value
    (holdings : List HoldingRow) (sd : StockData) (dates : List Int)
    (inv : String)
    (hwo : holdingsWithoutData sd (investorGroup holdings inv) ≠ [])
    (hcv : 0 < coveredValueSum holdings sd inv)
    (hd : dates ≠ []) (i : ℕ) (hi : i < dates.length) :
    (calculate_portfolio_with_partial_data holdings sd dates inv).getD i 0 =
      (coveredSeries holdings sd dates inv).getD i 0 +
      uncoveredValueSum holdings sd inv *
        ((coveredSeries holdings sd dates inv).getD i 0 /
         (coveredSeries holdings sd dates inv).getD 0 0) := by
  have hlenp : (coveredSeries holdings sd dates inv).length = dates.length :=
    coveredSeries_length holdings sd dates inv
  have hdl : 0 < dates.length := List.length_pos.mpr hd
  have hip : i < (coveredSeries holdings sd dates inv).length := hlenp ▸ hi
  have hpne : coveredSeries holdings sd dates inv ≠ [] := by
    intro h0
    rw [h0] at hlenp
    simp at hlenp
    omega
  unfold calculate_portfolio_with_partial_data
  rw [if_pos (List.length_pos.mpr hwo)]
  rw [if_pos ⟨hcv, by rw [hlenp]; exact hdl⟩]
  rw [List.getD_eq_getElem _ _ (by simpa [List.length_zipWith] using hip)]
  rw [List.getElem_zipWith]
  rw [List.getElem_map]
  rw [headI_eq_getD _ hpne, List.getD_eq_getElem _ _ hip]

/-- Witness for C2 at a concrete input. -/
theorem final_series_adds_scaled_uncovered_value_witness :
    (calculate_portfolio_with_partial_data
        [⟨"A", "X", 1, 100⟩, ⟨"A", "Y", 1, 50⟩]
        [("X", [(0, 10), (1, 20)])] [0, 1] "A").getD 1 0 =
      (coveredSeries [⟨"A", "X", 1, 100⟩, ⟨"A", "Y", 1, 50⟩]
        [("X", [(0, 10), (1, 20)])] [0, 1] "A").getD 1 0 +
      uncoveredValueSum [⟨"A", "X", 1, 100⟩, ⟨"A", "Y", 1, 50⟩]
          [("X", [(0, 10), (1, 20)])] "A" *
        ((coveredSeries [⟨"A", "X", 1, 100⟩, ⟨"A", "Y", 1, 50⟩]
            [("X", [(0, 10), (1, 20)])] [0, 1] "A").getD 1 0 /
         (coveredSeries [⟨"A", "X", 1, 100⟩, ⟨"A", "Y", 1, 50⟩]
            [("X", [(0, 10), (1, 20)])] [0, 1] "A").getD 0 0) :=
  final_series_adds_scaled_uncovered_value
    [⟨"A", "X", 1, 100⟩, ⟨"A", "Y", 1, 50⟩]
    [("X", [(0, 10), (1, 20)])] [0, 1] "A"
    (by simp [holdingsWithoutData, investorGroup, hasData, alookup,
      List.filter, List.find?])
    (by simp [coveredValueSum, holdingsWithData, investorGroup, hasData,
      alookup, List.filter, List.find?])
    (by simp) 1 (by simp)

/-- **C7, counterexample.** The claim that the divisor of the growth
ratio is never zero in the estimation branch is false: here the branch
is reached (an uncovered holding exists, the covered holdings' summed
current value is positive, the grid is nonempty), yet the covered
series' value at the first grid date — the divisor — is `0`, because the
only covered price series starts after the first grid date. -/
theorem growth_ratio_divisor_zero_counterexample :
    0 < (holdingsWithoutData [("X", [(1, 10)])]
        (investorGroup [⟨"A", "X", 1, 100⟩, ⟨"A", "Y", 1, 50⟩] "A")).length ∧
    0 < coveredValueSum [⟨"A", "X", 1, 100⟩, ⟨"A", "Y", 1, 50⟩]
        [("X", [(1, 10)])] "A" ∧
    ([0, 1] : List Int) ≠ [] ∧
    (coveredSeries [⟨"A", "X", 1, 100⟩, ⟨"A", "Y", 1, 50⟩]
        [("X", [(1, 10)])] [0, 1] "A").getD 0 0 = 0 := by
  refine ⟨?_, ?_, by simp, ?_⟩
  · simp [holdingsWithoutData, investorGroup, hasData, alookup,
      List.filter, List.find?]
  · simp [coveredValueSum, holdingsWithData, investorGroup, hasData,
      alookup, List.filter, List.find?]
  · simp [coveredSeries, holdingsWithData, investorGroup, hasData, alookup,
      addStockValue, alignedValue, ffillAt, List.filter, List.find?]

/-- **C7, amended.** The estimation branch's guard does not by itself
rule out a zero divisor; the divisor (the covered series' value at the
first grid date) is nonzero provided every covered holding's
contribution at the first grid date is nonnegative and at least one is
positive. -/
theorem growth_ratio_divisor_nonzero_of_positive_contribution
    (holdings : List HoldingRow) (sd : StockData) (dates : List Int)
    (inv : String) (hd : dates ≠ [])
    (hnn : ∀ h ∈ holdingsWithData sd (investorGroup holdings inv),
      0 ≤ contribAt sd (dates.getD 0 0) h)
    (hpos : ∃ h ∈ holdingsWithData sd (investorGroup holdings inv),
      0 < contribAt sd (dates.getD 0 0) h) :
    (coveredSeries holdings sd dates inv).getD 0 0 ≠ 0 := by
  have hdl : 0 < dates.length := List.length_pos.mpr hd
  unfold coveredSeries
  rw [foldl_addStockValue_get sd dates _ _ (by simp) 0 hdl]
  obtain ⟨h, hmem, hp⟩ := hpos
  have : 0 < ((holdingsWithData sd (investorGroup holdings inv)).map
      (contribAt sd (dates.getD 0 0))).sum := by
    refine sum_pos_of_mem ?_ (contribAt sd (dates.getD 0 0) h) ?_ hp
    · intro x hx
      obtain ⟨y, hy, rfl⟩ := List.mem_map.mp hx
      exact hnn y hy
    · exact List.mem_map_of_mem _ hmem
  simpa using ne_of_gt this

/-- Witness for the amended C7 at a concrete input. -/
theorem growth_ratio_divisor_nonzero_of_positive_contribution_witness :
    (coveredSeries [⟨"A", "X", 1, 100⟩, ⟨"A", "Y", 1, 50⟩]
        [("X", [(0, 10)])] [0, 1] "A").getD 0 0 ≠ 0 :=
  growth_ratio_divisor_nonzero_of_positive_contribution
    [⟨"A", "X", 1, 100⟩, ⟨"A", "Y", 1, 50⟩] [("X", [(0, 10)])] [0, 1] "A"
    (by simp)
    (by
      intro h hmem
      simp only [holdingsWithData, investorGroup, hasData, alookup,
        List.filter, List.find?] at hmem
      simp at hmem
      subst hmem
      simp [contribAt, alookup, alignedValue, ffillAt, List.filter, List.find?])
    (by
      refine ⟨⟨"A", "X", 1, 100⟩, ?_, ?_⟩
      · simp [holdingsWithData, investorGroup, hasData, alookup,
          List.filter, List.find?]
      · simp [contribAt, alookup, alignedValue, ffillAt, List.filter, List.find?])

/-- First-occurrence deduplication, the embedding of pandas
`Series.unique()` and of Python `dict.fromkeys` key order.  The fuel is
an upper bound on the recursion depth (filtering never lengthens the
list), so `dedupFirst` below always runs to completion. -/
def dedupFirstAux {α : Type} [DecidableEq α] (fuel : Nat) (l : List α) :
    List α :=
  match fuel, l with
  | 0, l => l
  | _, [] => []
  | fuel + 1, x :: xs => x :: dedupFirstAux fuel (xs.filter (fun y => y ≠ x))

def dedupFirst {α : Type} [DecidableEq α] (l : List α) : List α :=
  dedupFirstAux l.length l

/-- The group keys of `holdings_df.groupby('NAME')`: the distinct
investor names.  (pandas additionally sorts the keys; every statement
proved here is per-investor and independent of key order, so the keys
are kept in first-occurrence order.) -/
def investorKeys (holdings : List HoldingRow) : List String :=
  dedupFirst (holdings.map (·.name))

/-- `total_value = group['Demat Holding Vlaue (Rs.)'].sum()`. -/
def investorTotalValue (holdings : List HoldingRow) (inv : String) : ℚ :=
  ((investorGroup holdings inv).map (·.value)).sum

/-- One row of the DataFrame built by `calculate_coverage_stats`. -/
structure CoverageStat where
  investor : String
  totalHoldings : ℕ
  holdingsWithDataCount : ℕ
  totalValue : ℚ
  valueWithData : ℚ
  coveragePct : ℚ
  deriving Repr, DecidableEq

/-- `calculate_coverage_stats` (smart_calculator.py): one stat record
per investor; `coverage = (value_with_data / total_value * 100) if
total_value > 0 else 0`. -/
def calculate_coverage_stats (holdings : List HoldingRow) (sd : StockData) :
    List CoverageStat :=
  (investorKeys holdings).map (fun inv =>
    { investor := inv
      totalHoldings := (investorGroup holdings inv).length
      holdingsWithDataCount := (holdingsWithData sd (investorGroup holdings inv)).length
      totalValue := investorTotalValue holdings inv
      valueWithData := coveredValueSum holdings sd inv
      coveragePct :=
        if 0 < investorTotalValue holdings inv then
          coveredValueSum holdings sd inv / investorTotalValue holdings inv * 100
        else 0 })

/-- **C10.** Every reported coverage percentage equals the investor's
covered current value divided by the total current value times 100 when
the total is positive, and equals 0 when the total is 0: the division is
guarded by `total_value > 0` and never performed on a zero total. -/
theorem coverage_pct_is_guarded_value_ratio
    (holdings : List HoldingRow) (sd : StockData) (stat : CoverageStat)
    (hmem : stat ∈ calculate_coverage_stats holdings sd) :
    (0 < investorTotalValue holdings stat.investor →
      stat.coveragePct =
        coveredValueSum holdings sd stat.investor /
          investorTotalValue holdings stat.investor * 100) ∧
    (investorTotalValue holdings stat.investor = 0 → stat.coveragePct = 0) := by
  obtain ⟨inv, hinv, rfl⟩ := List.mem_map.mp hmem
  constructor
  · intro hpos
    simp only at hpos ⊢
    rw [if_pos hpos]
  · intro hz
    simp only at hz ⊢
    rw [if_neg (by rw [hz]; exact lt_irrefl 0)]

/-- Witness for C10 at a concrete input. -/
theorem coverage_pct_is_guarded_value_ratio_witness :
    (0 < investorTotalValue [⟨"A", "X", 1, 100⟩, ⟨"A", "Y", 1, 50⟩]
        (CoverageStat.investor ⟨"A", 2, 1, 150, 100, 100 / 150 * 100⟩) →
      (CoverageStat.coveragePct ⟨"A", 2, 1, 150, 100, 100 / 150 * 100⟩) =
        coveredValueSum [⟨"A", "X", 1, 100⟩, ⟨"A", "Y", 1, 50⟩] [("X", [(0, 10)])]
            (CoverageStat.investor ⟨"A", 2, 1, 150, 100, 100 / 150 * 100⟩) /
          investorTotalValue [⟨"A", "X", 1, 100⟩, ⟨"A", "Y", 1, 50⟩]
            (CoverageStat.investor ⟨"A", 2, 1, 150, 100, 100 / 150 * 100⟩) * 100) ∧
    (investorTotalValue [⟨"A", "X", 1, 100⟩, ⟨"A", "Y", 1, 50⟩]
        (CoverageStat.investor ⟨"A", 2, 1, 150, 100, 100 / 150 * 100⟩) = 0 →
      (CoverageStat.coveragePct ⟨"A", 2, 1, 150, 100, 100 / 150 * 100⟩) = 0) :=
  coverage_pct_is_guarded_value_ratio
    [⟨"A", "X", 1, 100⟩, ⟨"A", "Y", 1, 50⟩] [("X", [(0, 10)])]
    ⟨"A", 2, 1, 150, 100, 100 / 150 * 100⟩
    (by
      simp [calculate_coverage_stats, investorKeys, dedupFirst, dedupFirstAux,
        investorGroup, investorTotalValue, coveredValueSum, holdingsWithData,
        hasData, alookup, List.filter, List.find?]
      norm_num)

/-- `get_april_2024_price` (investment_calculator.py): the price of a
security on or nearest to the investment date.  Exact index date first;
else the first index position on or after the date
(`future_dates[0]`); else the last index position before it
(`past_dates[-1]`); `None` when the security is absent or the series is
empty.  (The timezone-stripping step has no content in this date
model.) -/
def get_april_2024_price (sd : StockData) (security : String)
    (investDt : Int) : Option ℚ :=
  match alookup sd security with
  | none => none
  | some ps =>
    if (ps.map Prod.fst).contains investDt then
      ((ps.filter (fun p => p.1 = investDt)).head?).map Prod.snd
    else
      match (ps.filter (fun p => investDt ≤ p.1)).head? with
      | some p => some p.2
      | none =>
        match (ps.filter (fun p => p.1 < investDt)).getLast? with
        | some p => some p.2
        | none => none

theorem sorted_keys_tail_lt {a : Int × ℚ} {t : PriceSeries}
    (hs : ((a :: t).map Prod.fst).Sorted (· < ·)) :
    ∀ q ∈ t, a.1 < q.1 := by
  intro q hq
  have := (List.pairwise_cons.mp hs).1
  exact this q.1 (List.mem_map_of_mem Prod.fst hq)

theorem head_filter_eq_key {ps : PriceSeries} {dt : Int} {q : ℚ}
    (hs : (ps.map Prod.fst).Sorted (· < ·)) (hq : (dt, q) ∈ ps) :
    (ps.filter (fun p => p.1 = dt)).head? = some (dt, q) := by
  induction ps with
  | nil => cases hq
  | cons a t ih =>
      rcases List.mem_cons.mp hq with h | h
      · subst h
        simp [List.filter_cons]
      · have hat : a.1 < dt := sorted_keys_tail_lt hs (dt, q) h
        have hne : ¬ (a.1 = dt) := ne_of_lt hat
        rw [List.filter_cons, if_neg (by simpa using hne)]
        exact ih ((List.pairwise_cons.mp hs).2) h

theorem head_filter_ge_min {ps : PriceSeries} {dt : Int} {p : Int × ℚ}
    (hs : (ps.map Prod.fst).Sorted (· < ·)) (hp : p ∈ ps) (hge : dt ≤ p.1)
    (hmin : ∀ q ∈ ps, dt ≤ q.1 → p.1 ≤ q.1) :
    (ps.filter (fun x => dt ≤ x.1)).head? = some p := by
  induction ps with
  | nil => cases hp
  | cons a t ih =>
      by_cases hda : dt ≤ a.1
      · rw [List.filter_cons, if_pos (by simpa using hda)]
        have hpa : p = a := by
          rcases List.mem_cons.mp hp with h | h
          · exact h
          · have h1 : a.1 < p.1 := sorted_keys_tail_lt hs p h
            have h2 : p.1 ≤ a.1 := hmin a (List.mem_cons_self a t) hda
            exact absurd h1 (not_lt.mpr h2)
        rw [hpa]
        rfl
      · rw [List.filter_cons, if_neg (by simpa using hda)]
        have hpt : p ∈ t := by
          rcases List.mem_cons.mp hp with h | h
          · exact absurd (h ▸ hge) hda
          · exact h
        exact ih ((List.pairwise_cons.mp hs).2) hpt
          (fun q hq hdq => hmin q (List.mem_cons_of_mem a hq) hdq)

theorem getLast_of_max {ps : PriceSeries} {p : Int × ℚ}
    (hs : (ps.map Prod.fst).Sorted (· < ·)) (hp : p ∈ ps)
    (hmax : ∀ q ∈ ps, q.1 ≤ p.1) : ps.getLast? = some p := by
  induction ps with
  | nil => cases hp
  | cons a t ih =>
      cases t with
      | nil =>
          rcases List.mem_cons.mp hp with h | h
          · rw [h]; rfl
          · cases h
      | cons b u =>
          have hpt : p ∈ b :: u := by
            rcases List.mem_cons.mp hp with h | h
            · exfalso
              have hb : a.1 < b.1 :=
                sorted_keys_tail_lt hs b (List.mem_cons_self b u)
              have := hmax b (List.mem_cons_of_mem a (List.mem_cons_self b u))
              rw [h] at this
              exact absurd hb (not_lt.mpr this)
            · exact h
          rw [List.getLast?_cons_cons]
          exact ih ((List.pairwise_cons.mp hs).2) hpt
            (fun q hq => hmax q (List.mem_cons_of_mem a hq))

/-- **C8.** For a security present in the data with a (strictly
increasing, as pandas monthly series are) price index:
the returned price is the one at the exact investment date when that
date is in the index; otherwise the one at the least index date on or
after the investment date (any later date is preferred over every
earlier one); otherwise the one at the greatest index date before the
investment date; and the result is `None` exactly when the security is
absent from the data or its series is empty. -/
theorem get_april_isSome_of_ne_nil {sd : StockData} {sec : String}
    {dt : Int} {ps : PriceSeries} (hlk : alookup sd sec = some ps)
    (hne : ps ≠ []) : get_april_2024_price sd sec dt ≠ none := by
  unfold get_april_2024_price
  rw [hlk]
  dsimp only
  by_cases hc : (ps.map Prod.fst).contains dt
  · rw [if_pos hc]
    have hdt : dt ∈ ps.map Prod.fst := by simpa using hc
    obtain ⟨⟨d, q⟩, hmem, hdq⟩ := List.mem_map.mp hdt
    have hf : (d, q) ∈ ps.filter (fun p => p.1 = dt) :=
      List.mem_filter.mpr ⟨hmem, by simpa using hdq⟩
    cases hfe : (ps.filter (fun p => p.1 = dt)) with
    | nil => rw [hfe] at hf; cases hf
    | cons x y => simp [hfe]
  · rw [if_neg hc]
    cases hfe : (ps.filter (fun p => dt ≤ p.1)).head? with
    | some p => simp
    | none =>
        have hfut : ps.filter (fun p => dt ≤ p.1) = [] :=
          List.head?_eq_none_iff.mp hfe
        have hall : ∀ q ∈ ps, q.1 < dt := by
          intro q hq
          have := List.filter_eq_nil_iff.mp hfut q hq
          simpa using this
        have hpast : ps.filter (fun p => p.1 < dt) = ps :=
          List.filter_eq_self.mpr (fun q hq => by simpa using hall q hq)
        rw [hpast]
        cases hgl : ps.getLast? with
        | none => exact absurd (List.getLast?_eq_none_iff.mp hgl) hne
        | some x => simp

/-- **C8.** For a security present in the data with a (strictly
increasing, as pandas monthly series are) price index:
the returned price is the one at the exact investment date when that
date is in the index; otherwise the one at the least index date on or
after the investment date (any later date is preferred over every
earlier one); otherwise the one at the greatest index date before the
investment date; and the result is `None` exactly when the security is
absent from the data or its series is empty. -/
theorem get_april_2024_price_spec (sd : StockData) (sec : String) (dt : Int)
    (hs : ∀ ps, alookup sd sec = some ps → ((ps.map Prod.fst).Sorted (· < ·))) :
    (get_april_2024_price sd sec dt = none ↔
      alookup sd sec = none ∨ alookup sd sec = some []) ∧
    (∀ ps, alookup sd sec = some ps →
      (∀ q : ℚ, (dt, q) ∈ ps → get_april_2024_price sd sec dt = some q) ∧
      (∀ p ∈ ps, dt ∉ ps.map Prod.fst → dt ≤ p.1 →
        (∀ q ∈ ps, dt ≤ q.1 → p.1 ≤ q.1) →
        get_april_2024_price sd sec dt = some p.2) ∧
      ((∀ q ∈ ps, q.1 < dt) → ∀ p ∈ ps, (∀ q ∈ ps, q.1 ≤ p.1) →
        get_april_2024_price sd sec dt = some p.2)) := by
  constructor
  · constructor
    · intro hnone
      cases hlk : alookup sd sec with
      | none => exact Or.inl rfl
      | some ps =>
          by_cases hps : ps = []
          · subst hps
            exact Or.inr rfl
          · exact absurd hnone (get_april_isSome_of_ne_nil hlk hps)
    · intro hor
      rcases hor with hlk | hlk
      · unfold get_april_2024_price
        rw [hlk]
      · unfold get_april_2024_price
        rw [hlk]
        dsimp only
        simp
  · intro ps hlk
    have hsort := hs ps hlk
    refine ⟨?_, ?_, ?_⟩
    · intro q hq
      unfold get_april_2024_price
      rw [hlk]
      dsimp only
      have hc : (ps.map Prod.fst).contains dt :=
        List.elem_eq_true_of_mem (List.mem_map_of_mem Prod.fst hq)
      rw [if_pos hc, head_filter_eq_key hsort hq]
      rfl
    · intro p hp hnc hge hmin
      unfold get_april_2024_price
      rw [hlk]
      dsimp only
      rw [if_neg (by simpa using hnc)]
      rw [head_filter_ge_min hsort hp hge hmin]
    · intro hall p hp hmax
      unfold get_april_2024_price
      rw [hlk]
      dsimp only
      have hnc : ¬ (ps.map Prod.fst).contains dt := by
        intro hc
        obtain ⟨q, hq⟩ : ∃ x : ℚ, (dt, x) ∈ ps := by simpa using hc
        exact absurd (hall (dt, q) hq) (lt_irrefl dt)
      rw [if_neg hnc]
      have hfut : (ps.filter (fun p => dt ≤ p.1)) = [] :=
        List.filter_eq_nil_iff.mpr (fun q hq => by simpa using hall q hq)
      have hpast : (ps.filter (fun p => p.1 < dt)) = ps :=
        List.filter_eq_self.mpr (fun q hq => by simpa using hall q hq)
      rw [hfut, hpast]
      simp only [List.head?_nil]
      rw [getLast_of_max hsort hp hmax]

/-- Witness for C8 at a concrete input (the future-date branch). -/
theorem get_april_2024_price_spec_witness :
    get_april_2024_price [("X", [(0, 5), (10, 7)])] "X" 3 = some 7 :=
  ((get_april_2024_price_spec [("X", [(0, 5), (10, 7)])] "X" 3
      (by intro ps hps; simp [alookup, List.find?] at hps; rw [← hps]; decide)).2
    [(0, 5), (10, 7)] rfl).2.1 (10, 7) (by decide) (by decide) (by decide)
    (by decide)

/-- One row of the `investment_df` DataFrame built by
`calculate_investment_values`: the copied holdings row (`base`) plus the
five columns the function adds and fills in (each initialised to
`0.0`). -/
structure InvestmentRow where
  base : HoldingRow
  aprilPrice : ℚ
  investmentValue : ℚ
  currentPrice : ℚ
  gainLoss : ℚ
  gainLossPct : ℚ
  deriving Repr, DecidableEq

/-- One iteration of the `for idx, row in investment_df.iterrows()` loop
of `calculate_investment_values` (investment_calculator.py): the `.at`
writes all target the new columns of the copied row. -/
def calc_investment_row (sd : StockData) (investDt : Int)
    (h : HoldingRow) : InvestmentRow :=
  match get_april_2024_price sd h.security investDt with
  | none => ⟨h, 0, 0, 0, 0, 0⟩
  | some ap =>
    if 0 < h.holding then
      if 0 < h.holding * ap then
        ⟨h, ap, h.holding * ap, h.value / h.holding, h.value - h.holding * ap,
          (h.value - h.holding * ap) / (h.holding * ap) * 100⟩
      else
        ⟨h, ap, h.holding * ap, h.value / h.holding, h.value - h.holding * ap, 0⟩
    else
      ⟨h, ap, h.holding * ap, 0, 0, 0⟩

/-- `calculate_investment_values` with the holdings table passed in
state-passing style: the first component is the returned
`investment_df` (built from `holdings_df.copy()`, so the in-place `.at`
writes of the loop target the copy), the second component is the
contents of the `holdings_df` argument after the call. -/
def calculate_investment_values (holdings : List HoldingRow)
    (sd : StockData) (investDt : Int) : List InvestmentRow × List HoldingRow :=
  (holdings.map (calc_investment_row sd investDt), holdings)

/-- `calculate_portfolio_with_partial_data` in the same state-passing
style: its body only groups and filters `holdings_df` (no statement
assigns into it), so the table after the call is the table passed in. -/
def calculate_portfolio_run (holdings : List HoldingRow) (sd : StockData)
    (dates : List Int) : (String → List ℚ) × List HoldingRow :=
  (fun inv => calculate_portfolio_with_partial_data holdings sd dates inv, holdings)

/-- `calculate_coverage_stats` in the same state-passing style: its body
only groups, filters and sums `holdings_df`. -/
def calculate_coverage_stats_run (holdings : List HoldingRow)
    (sd : StockData) : List CoverageStat × List HoldingRow :=
  (calculate_coverage_stats holdings sd, holdings)

/-- **C9.** The three valuation and reporting operations leave the
holdings table unchanged: the table contents after each call equal the
contents before it, and in `calculate_investment_values` the writes land
on the copy only — every copied row still carries the original row's
values, column for column. -/
theorem valuation_ops_leave_holdings_unchanged
    (holdings : List HoldingRow) (sd : StockData) (dates : List Int)
    (investDt : Int) :
    (calculate_portfolio_run holdings sd dates).2 = holdings ∧
    (calculate_coverage_stats_run holdings sd).2 = holdings ∧
    (calculate_investment_values holdings sd investDt).2 = holdings ∧
    ((calculate_investment_values holdings sd investDt).1.map (·.base)) =
      holdings := by
  refine ⟨rfl, rfl, rfl, ?_⟩
  unfold calculate_investment_values
  simp only
  rw [List.map_map]
  have hbase : ∀ h : HoldingRow,
      (calc_investment_row sd investDt h).base = h := by
    intro h
    unfold calc_investment_row
    cases get_april_2024_price sd h.security investDt with
    | none => rfl
    | some ap =>
        by_cases h1 : 0 < h.holding
        · by_cases h2 : 0 < h.holding * ap
          · simp [h1, h2]
          · simp [h1, h2]
        · simp [h1]
  calc holdings.map ((·.base) ∘ calc_investment_row sd investDt)
      = holdings.map id := List.map_congr_left (fun h _ => hbase h)
    _ = holdings := List.map_id holdings

/-- Python's `\w` character class (ASCII inputs): letters, digits,
underscore. -/
def isWordChar (c : Char) : Bool :=
  c.isAlphanum || c = '_'

/-- `pat in s` (substring containment). -/
def isInfix (pat : List Char) : List Char → Bool
  | [] => pat.isEmpty
  | c :: rest => pat.isPrefixOf (c :: rest) || isInfix pat rest

/-- `s.replace(pat, repl)` for a nonempty pattern: replace every
non-overlapping occurrence, scanning left to right. -/
def replaceAux (pat repl : List Char) (fuel : Nat) (s : List Char) : List Char :=
  match fuel, s with
  | 0, s => s
  | _, [] => []
  | fuel + 1, c :: rest =>
    if pat ≠ [] ∧ pat.isPrefixOf (c :: rest) then
      repl ++ replaceAux pat repl fuel ((c :: rest).drop pat.length)
    else
      c :: replaceAux pat repl fuel rest

/-- `str.replace` on strings (all occurrences, left to right). -/
def pyReplace (s pat repl : String) : String :=
  String.mk (replaceAux pat.data repl.data s.data.length s.data)

/-- `str.strip()` (the data contain no exotic whitespace). -/
def pyStrip (s : String) : String :=
  String.mk (((s.data.dropWhile (·.isWhitespace)).reverse.dropWhile
    (·.isWhitespace)).reverse)

/-- `str.upper()` (ASCII inputs). -/
def pyUpper (s : String) : String :=
  String.mk (s.data.map Char.toUpper)

/-- Split a character list at spaces; runs of spaces yield empty
pieces, exactly like `str.split(' ')`. -/
def splitOnSpace (s : List Char) : List (List Char) :=
  match s with
  | [] => [[]]
  | c :: rest =>
    match splitOnSpace rest with
    | [] => [[]]
    | w :: ws => if c = ' ' then [] :: w :: ws else (c :: w) :: ws

/-- `str.split()` restricted to spaces: the nonempty space-separated
words (the data contain no tabs or newlines). -/
def pyWords (s : String) : List String :=
  ((splitOnSpace s.data).filter (fun w => w ≠ [])).map String.mk

/-- `' '.join(words)`. -/
def joinWords : List (List Char) → List Char
  | [] => []
  | [w] => w
  | w :: ws => w ++ ' ' :: joinWords ws

/-- `re.sub(r'\b' + tok + r'\b', '', s)` for a token of word characters
optionally ending in a literal dot, as in `clean_company_name`'s
`remove_patterns`: scan left to right; a match needs the token as a
prefix, a word boundary before it (start of string or a non-word
character, since the token starts with a word character) and the
boundary required after it (after a word character: end of string or a
non-word character; after a dot: a word character, since `\b` after a
non-word character needs a word character next).  `prev` is the
character of the original string just before the scan position. -/
def subWordAux (tok : List Char) (fuel : Nat) (prev : Option Char)
    (s : List Char) : List Char :=
  match fuel, s with
  | 0, s => s
  | _, [] => []
  | fuel + 1, c :: rest =>
    let startOK : Bool := match prev with
      | none => true
      | some p => ¬ isWordChar p
    let next := (c :: rest).drop tok.length
    let endOK : Bool := match tok.getLast? with
      | none => false
      | some tl =>
          if isWordChar tl then
            match next with
            | [] => true
            | d :: _ => ¬ isWordChar d
          else
            match next with
            | [] => false
            | d :: _ => isWordChar d
    if tok ≠ [] ∧ tok.isPrefixOf (c :: rest) ∧ startOK ∧ endOK then
      subWordAux tok fuel tok.getLast? next
    else
      c :: subWordAux tok fuel (some c) rest

/-- Word-boundary token removal on strings. -/
def subWord (tok : String) (s : String) : String :=
  String.mk (subWordAux tok.data s.data.length none s.data)

/-- A matcher returns the remainder of the string after a match starting
at the current position, or `none` if no match starts here. -/
abbrev Matcher := List Char → Option (List Char)

/-- Literal fragment. -/
def mLit (w : String) : Matcher := fun s =>
  if w.data.isPrefixOf s then some (s.drop w.data.length) else none

/-- `\s*` (greedy; no following pattern element here can match a
whitespace character, so greediness without backtracking is exact). -/
def mWs : Matcher := fun s => some (s.dropWhile (·.isWhitespace))

/-- `\.?` (greedy; exact here for the same reason). -/
def mOptDot : Matcher := fun s =>
  match s with
  | '.' :: rest => some rest
  | _ => some s

/-- `\d+` (greedy). -/
def mDigits : Matcher := fun s =>
  match s with
  | c :: _ => if c.isDigit then some (s.dropWhile (·.isDigit)) else none
  | [] => none

/-- `.*` to the end of the string (security names contain no newline). -/
def mRest : Matcher := fun _ => some []

/-- Sequential composition of matchers. -/
def mSeq (m₁ m₂ : Matcher) : Matcher := fun s =>
  match m₁ s with
  | some rem => m₂ rem
  | none => none

/-- `re.sub(pattern, '', s)`: remove every non-overlapping match, scanning
left to right.  Every pattern used here consumes at least one character
when it matches. -/
def subPatternAux (m : Matcher) (fuel : Nat) (s : List Char) : List Char :=
  match fuel, s with
  | 0, s => s
  | _, [] => []
  | fuel + 1, c :: rest =>
    match m (c :: rest) with
    | some rem => subPatternAux m fuel rem
    | none => c :: subPatternAux m fuel rest

def subPattern (m : Matcher) (s : String) : String :=
  String.mk (subPatternAux m s.data.length s.data)

/-- The `remove_patterns` suffix tokens of `clean_company_name`
(nse_equity_matcher.py), in source order. -/
def removePatterns : List String :=
  ["LIMITED", "LTD", "LTD.", "PRIVATE", "PVT", "PVT.",
   "COMPANY", "CO", "CO.", "CORPORATION", "CORP", "CORP.",
   "ENTERPRISES", "INDUSTRIES", "INTERNATIONAL"]

/-- The `equity_patterns` regexes of `clean_company_name`, in source
order, each as a matcher. -/
def equityPatterns : List Matcher :=
  [mSeq (mLit "EQ") (mSeq mWs (mSeq (mLit "NEW") mRest)),
   mSeq (mLit "EQ") (mSeq mWs (mLit "EQ")),
   mSeq (mLit "EQ") (mSeq mWs (mSeq (mLit "F") (mSeq mOptDot (mSeq (mLit "V") (mSeq mOptDot mRest))))),
   mSeq (mLit "EQ") (mSeq mWs (mSeq (mLit "RS") (mSeq mOptDot mRest))),
   mSeq (mLit "NEW") (mSeq mWs (mSeq (mLit "FV") mRest)),
   mSeq (mLit "NEW") (mSeq mWs (mSeq (mLit "RS") (mSeq mOptDot mRest))),
   mSeq (mLit "F") (mSeq mOptDot (mSeq (mLit "V") (mSeq mOptDot (mSeq mWs (mSeq (mLit "RS") (mSeq mOptDot mRest)))))),
   mSeq (mLit "RE") (mSeq mOptDot (mSeq mWs mDigits)),
   mSeq (mLit "RS") (mSeq mOptDot (mSeq mWs mDigits)),
   mSeq mDigits (mLit "/-"),
   mSeq mDigits (mSeq (mLit "/") mDigits)]

/-- `clean_company_name` (nse_equity_matcher.py): uppercase, remove the
corporate-suffix tokens at word boundaries, remove the equity-marker and
face-value patterns, map the remaining characters outside `[\w\s&]` to
spaces, and collapse whitespace runs (space-separated words; the data
contain no other whitespace). -/
def clean_company_name (name : String) : String :=
  let n := pyUpper name
  let n := removePatterns.foldl (fun acc tok => subWord tok acc) n
  let n := equityPatterns.foldl (fun acc m => subPattern m acc) n
  let n := String.mk (n.data.map (fun c =>
    if isWordChar c || c.isWhitespace || c = '&' then c else ' '))
  String.mk (joinWords ((splitOnSpace n.data).filter (fun w => w ≠ [])))

/-- `clean_security_name` (ticker_resolver.py): uppercase, strip, then a
fixed chain of literal substring removals, then strip. -/
def clean_security_name (name : String) : String :=
  let c := pyStrip (pyUpper name)
  let c := pyReplace (pyReplace c " EQ NEW RS. 2/-" "") " EQ NEW RS. 2/" ""
  let c := pyReplace (pyReplace c " EQ NEW FV RS. 2/-" "") " EQ NEW" ""
  let c := pyReplace (pyReplace c " RS. 10/-" "") " RS. 2/-" ""
  let c := pyReplace (pyReplace c " EQ" "") " NEW" ""
  let c := pyReplace (pyReplace c " FV RS. 10/-" "") " FV RS. 2/-" ""
  let c := pyReplace (pyReplace c " 10/-" "") " 2/-" ""
  pyStrip c

/-- The ascending positions of character `c` in `b` (difflib's `b2j`
row for `c`). -/
def bPositions (b : List Char) (c : Char) : List Nat :=
  (List.range b.length).filter (fun j => b.getD j ' ' == c)

/-- Lookup in the `j2len` dictionary, defaulting to 0. -/
def lookupNat (d : List (Nat × Nat)) (k : Nat) : Nat :=
  match d.find? (fun p => p.1 = k) with
  | some p => p.2
  | none => 0

/-- difflib's `SequenceMatcher.find_longest_match` on full ranges with
no junk (autojunk only affects second strings of 200 or more
characters, which the cleaned names never reach): returns `(i, j, k)`,
the longest block with `a[i:i+k] = b[j:j+k]`, earliest in `a` then in
`b`.  The row `j2len` maps `j` to the length of the common run ending
at the previous `a` position and `j - 1`. -/
def find_longest_match (a b : List Char) : Nat × Nat × Nat :=
  ((List.range a.length).foldl
    (fun (st : List (Nat × Nat) × (Nat × Nat × Nat)) i =>
      let js := bPositions b (a.getD i ' ')
      let newj2len := js.map (fun j =>
        (j, (if j = 0 then 0 else lookupNat st.1 (j - 1)) + 1))
      let best := js.foldl (fun bst j =>
        let k := (if j = 0 then 0 else lookupNat st.1 (j - 1)) + 1
        if k > bst.2.2 then (i + 1 - k, j + 1 - k, k) else bst) st.2
      (newj2len, best))
    ([], (0, 0, 0))).2

/-- Total size of difflib's matching blocks: the recursion of
`get_matching_blocks` (split around the longest match), of which the
ratio only needs the summed block sizes.  The fuel strictly exceeds any
possible recursion depth, as each recursive call is on strictly shorter
total input. -/
def matchesTotalFuel : Nat → List Char → List Char → Nat
  | 0, _, _ => 0
  | fuel + 1, a, b =>
    match find_longest_match a b with
    | (i, j, k) =>
      if k = 0 then 0
      else k + matchesTotalFuel fuel (a.take i) (b.take j)
             + matchesTotalFuel fuel (a.drop (i + k)) (b.drop (j + k))

def matchesTotal (a b : List Char) : Nat :=
  matchesTotalFuel (a.length + b.length + 1) a b

/-- `similarity_score` (nse_equity_matcher.py):
`SequenceMatcher(None, str1, str2).ratio()`, i.e. `2*M/T` with `M` the
total matched size and `T` the summed length (`1.0` on two empty
strings), in exact rational arithmetic. -/
def similarity_score (str1 str2 : String) : ℚ :=
  let T := str1.data.length + str2.data.length
  if T = 0 then 1 else 2 * (matchesTotal str1.data str2.data : ℚ) / (T : ℚ)

/-- `find_best_match` (nse_equity_matcher.py): exact match of cleaned
names first (first dictionary entry in insertion order), then the best
fuzzy score with `>` updates (so the first maximiser is kept), accepted
when `best_score >= threshold`. -/
def find_best_match (holdings_name : String)
    (nse_dict : List (String × String)) (threshold : ℚ) :
    Option String × ℚ × String :=
  match nse_dict.find?
      (fun p => clean_company_name p.1 = clean_company_name holdings_name) with
  | some p => (some p.2, 1, "exact")
  | none =>
    let best := nse_dict.foldl
      (fun (st : Option String × ℚ) p =>
        let score := similarity_score (clean_company_name holdings_name)
          (clean_company_name p.1)
        if score > st.2 then (some p.2, score) else st)
      (none, 0)
    if best.2 ≥ threshold then (best.1, best.2, "fuzzy")
    else (none, 0, "no_match")

/-- The best fuzzy score of a holdings name over the listing (`0` for an
empty listing), used to state the claims about `find_best_match`. -/
def bestFuzzyScore (name : String) (nse_dict : List (String × String)) : ℚ :=
  (nse_dict.map (fun p => similarity_score (clean_company_name name)
    (clean_company_name p.1))).foldl max 0

/-- `NSE_TICKER_MAP` (ticker_resolver.py), in source order. -/
def NSE_TICKER_MAP : List (String × String) :=
  [("ADANI PORTS AND SPECIAL ECONOMIC ZONE LIMITED", "ADANIPORTS"),
   ("ASIAN PAINTS LIMITED", "ASIANPAINT"),
   ("BHARTI AIRTEL LIMITED", "BHARTIARTL"),
   ("COAL INDIA LTD", "COALINDIA"),
   ("HDFC BANK LIMITED", "HDFCBANK"),
   ("HINDUSTAN UNILEVER LIMITED", "HINDUNILVR"),
   ("INFOSYS LIMITED", "INFY"),
   ("LARSEN AND TOUBRO LIMITED", "LT"),
   ("LARSEN & TOUBRO LIMITED", "LT"),
   ("RELIANCE INDUSTRIES LIMITED", "RELIANCE"),
   ("RELIANCE POWER LIMITED", "RPOWER"),
   ("TATA CONSULTANCY SERVICES LIMITED", "TCS"),
   ("TATA STEEL LIMITED", "TATASTEEL"),
   ("CG POWER AND INDUSTRIAL SOLUTIONS LIMITED", "CGPOWER"),
   ("CHAMBAL FERTILISERS AND CHEMICALS LIMITED", "CHAMBLFERT"),
   ("CROMPTON GREAVES CONSUMER ELECTRICALS LIMITED", "CROMPTON"),
   ("DABUR INDIA LIMITED", "DABUR"),
   ("ENERGY DEVELOPMENT COMPANY LIMITED", "ENERGYDEV"),
   ("IFCI LIMITED", "IFCI"),
   ("JAI CORP LIMITED", "JAICORPLTD"),
   ("JAIPRAKASH ASSOCIATES LIMITED", "JPASSOCIAT"),
   ("JAY SHREE TEA AND INDUSTRIES LIMITED", "JAYSREETEA"),
   ("JINDAL STEEL LIMITED", "JSL"),
   ("JIO FINANCIAL SERVICES LIMITED", "JIOFIN"),
   ("LTIMINDTREE LIMITED", "LTIM"),
   ("PAE LIMITED", "PAELIMITED"),
   ("POWER GRID CORPORATION OF INDIA LIMITED", "POWERGRID"),
   ("BAJAJ FINANCE LIMITED", "BAJFINANCE"),
   ("REC LIMITED", "RECLTD"),
   ("SBI CARDS AND PAYMENT SERVICES LIMITED", "SBICARD"),
   ("LIC HOUSING FINANCE LTD", "LICHSGFIN"),
   ("AXIS BANK LIMITED", "AXISBANK"),
   ("ICICI BANK LIMITED", "ICICIBANK"),
   ("STATE BANK OF INDIA", "SBIN"),
   ("GUJARAT STATE PETRONET LIMITED", "GSPL"),
   ("TORRENT POWER LIMITED", "TORNTPOWER"),
   ("HPL ELECTRIC & POWER LIMITED", "HPL"),
   ("TATA POWER COMPANY LIMITED", "TATAPOWER"),
   ("NTPC LIMITED", "NTPC"),
   ("MANGALORE REFINERY AND PETROCHEMICALS LIMITED", "MRPL"),
   ("OIL AND NATURAL GAS CORPORATION LIMITED", "ONGC"),
   ("INDIAN OIL CORPORATION LIMITED", "IOC"),
   ("BHARAT PETROLEUM CORPORATION LIMITED", "BPCL"),
   ("KHADIM INDIA LIMITED", "KHADIM"),
   ("WIPRO LIMITED", "WIPRO"),
   ("TECH MAHINDRA LIMITED", "TECHM"),
   ("HCL TECHNOLOGIES LIMITED", "HCLTECH"),
   ("AUROBINDO PHARMA", "AUROPHARMA"),
   ("BIOCON LIMITED", "BIOCON"),
   ("MANKIND PHARMA LTD", "MANKIND"),
   ("GLENMARK PHARMACEUTICALS LTD", "GLENMARK"),
   ("DR REDDY\x27S LABORATORIES LIMITED", "DRREDDY"),
   ("CIPLA LIMITED", "CIPLA"),
   ("SUN PHARMACEUTICAL INDUSTRIES LIMITED", "SUNPHARMA"),
   ("ESCORTS KUBOTA LIMITED", "ESCORTS"),
   ("EXIDE INDUSTRIES LIMITED", "EXIDEIND"),
   ("BASF INDIA LTD", "BASF"),
   ("CONTAINER CORPORATION OF INDIA", "CONCOR"),
   ("CUMMINS INDIA LIMITED", "CUMMINSIND"),
   ("BHARAT ELECTRONICS LIMITED", "BEL"),
   ("BHARAT HEAVY ELECTRICALS LIMITED", "BHEL"),
   ("MARUTI SUZUKI INDIA LIMITED", "MARUTI"),
   ("TATA MOTORS LIMITED", "TATAMOTORS"),
   ("MAHINDRA & MAHINDRA LIMITED", "M&M"),
   ("BAJAJ AUTO LIMITED", "BAJAJ-AUTO"),
   ("HERO MOTOCORP LIMITED", "HEROMOTOCO"),
   ("PIX TRANSMISSIONS LIMITED", "PIXTRANS"),
   ("PURAVANKARA LIMITED", "PURVA"),
   ("DLF LIMITED", "DLF"),
   ("GODREJ PROPERTIES LIMITED", "GODREJPROP"),
   ("ITC LIMITED", "ITC"),
   ("BRITANNIA INDUSTRIES LIMITED", "BRITANNIA"),
   ("NESTLE INDIA LIMITED", "NESTLEIND"),
   ("ADITYA BIRLA FASHION AND RETAIL LIMITED", "ABFRL"),
   ("TATA TECHNOLOGIES LTD", "TATATECH"),
   ("SYNGENE INTERNATIONAL LTD", "SYNGENE"),
   ("RATTANINDIA ENTERPRISES", "RTNINDIA"),
   ("INDEGENE LTD", "INDGN"),
   ("NAZARA TECHNOLOGIES LTD", "NAZARA"),
   ("POLICYBAZAAR", "POLICYBZR"),
   ("MTAR TECHNOLOGIES LTD", "MTARTECH"),
   ("WEST COAST PAPER MILLS LIMITED", "WSTCSTPAPR"),
   ("ATUL LIMITED", "ATUL"),
   ("ANIL LIMITED", "ANILLTD")]

/-- `try_ticker_variations` (ticker_resolver.py): the static-map entry
first (`.NS` then `.BO`), then the first word, then the first two words
combined, then the initial-letter abbreviation when the name contains
`' LIMITED'` or `' LTD'` and the abbreviation is longer than two
characters; duplicates removed keeping first occurrences
(`dict.fromkeys`). -/
def try_ticker_variations (base_name : String) : List String :=
  let fromMap := match alookup NSE_TICKER_MAP base_name with
    | some t => [t ++ ".NS", t ++ ".BO"]
    | none => []
  let ws := pyWords base_name
  let fromWords := match ws with
    | [] => []
    | w :: rest =>
      [w ++ ".NS", w ++ ".BO"] ++
      (match rest with
       | [] => []
       | w2 :: _ => [w ++ w2 ++ ".NS", w ++ w2 ++ ".BO"])
  let fromAbbrev :=
    if isInfix " LIMITED".data base_name.data ||
        isInfix " LTD".data base_name.data then
      let src := pyReplace (pyReplace base_name " LIMITED" "") " LTD" ""
      let abbr := String.mk ((pyWords src).filterMap (fun w => w.data.head?))
      if 2 < abbr.length then [abbr ++ ".NS", abbr ++ ".BO"] else []
    else []
  dedupFirst (fromMap ++ fromWords ++ fromAbbrev)

/- Note: `test_ticker` performs a live market-data probe and catches
every exception internally, returning a plain boolean; it is modelled
throughout as an oracle `probe : String → Bool`. -/

/-- Modelled from the spec: `validated_tickers.py` (imported by
ticker_resolver.py but absent from the sources) provides
`get_validated_ticker`, the lookup of a security name in the curated
table of validated NSE tickers; the table itself is passed as `vt`. -/
def get_validated_ticker (vt : List (String × String)) (name : String) :
    Option String :=
  alookup vt name

/-- Lines 199–207 of `find_working_ticker`: probe the first three
name-heuristic variations in order, returning the first that the probe
accepts. -/
def variationSearch (probe : String → Bool) (security_name : String) :
    Option String :=
  ((try_ticker_variations (clean_security_name security_name)).take 3).find? probe

/-- `find_working_ticker` (ticker_resolver.py): the validated ticker if
present and confirmed by the probe; otherwise the first of (at most)
three heuristic variations accepted by the probe; otherwise `None`. -/
def find_working_ticker (vt : List (String × String))
    (probe : String → Bool) (security_name : String) : Option String :=
  match get_validated_ticker vt security_name with
  | some t => if probe t then some t else variationSearch probe security_name
  | none => variationSearch probe security_name

/-- `resolve_all_tickers` (ticker_resolver.py): resolve each unique
security name once, collecting successes into `success_map` and
failures into `failed_list`. -/
def resolve_all_tickers (holdings : List HoldingRow)
    (vt : List (String × String)) (probe : String → Bool) :
    List (String × String) × List String :=
  (dedupFirst (holdings.map (·.security))).foldl
    (fun st name =>
      match find_working_ticker vt probe name with
      | some t => (st.1 ++ [(name, t)], st.2)
      | none => (st.1, st.2 ++ [name]))
    ([], [])

/-- The resolution order asserted by the claim (this definition follows
the claim's words, not the code, and exists to be compared with
`find_working_ticker`): curated validated table first, then exact
cleaned-name match against the official listing, then fuzzy match above
the fixed threshold, and only last the probed heuristic variants. -/
def claimed_ticker_resolution (vt : List (String × String))
    (nse_dict : List (String × String)) (probe : String → Bool)
    (name : String) : Option String :=
  match get_validated_ticker vt name with
  | some t => some t
  | none =>
    match (find_best_match name nse_dict (4/5)).1 with
    | some t => some t
    | none => variationSearch probe name

/-- One raw row of the holdings sheet as `load_holdings_data` sees it
after column renaming: a `none` field models a NaN cell or a value that
`pd.to_numeric(errors='coerce')` turned into NaN.  (Column
auto-detection is an explicit spec non-goal and is not modelled.) -/
structure RawRow where
  name : Option String
  security : Option String
  holding : Option ℚ
  value : Option ℚ

/-- `load_holdings_data` (data_loader.py): the `except` clause prints
and then re-raises (`raise`), so an exception from the spreadsheet read
propagates to the caller; on success the rows with any required field
missing are dropped (`dropna` before and after `to_numeric`). -/
def load_holdings_data (raw : Except String (List RawRow)) :
    Except String (List HoldingRow) :=
  match raw with
  | .error e => .error e
  | .ok rows => .ok (rows.filterMap (fun r =>
      match r.name, r.security, r.holding, r.value with
      | some n, some s, some h, some v => some ⟨n, s, h, v⟩
      | _, _, _, _ => none))

/-- `hist['Close'].resample('ME').last()` with dates already at month
granularity and rows in time order: the last close per month key, months
in order of appearance. -/
def resampleMonthlyLast (h : List (Int × ℚ)) : List (Int × ℚ) :=
  (dedupFirst (h.map (·.1))).map (fun m =>
    (m, match (h.filter (fun p => p.1 = m)).getLast? with
        | some p => p.2
        | none => 0))

/-- `fetch_stock_historical_data` (market_data.py): an exception from
the fetch is caught and an empty series returned; an empty fetch result
also yields an empty series; otherwise the monthly closes. -/
def fetch_stock_historical_data (hist : Except String (List (Int × ℚ))) :
    List (Int × ℚ) :=
  match hist with
  | .error _ => []
  | .ok h => if h.isEmpty then [] else resampleMonthlyLast h

/-- Python `dict` assignment `d[k] = v`: overwrite in place if the key
exists, else append. -/
def dictInsert (d : List (String × String)) (k v : String) :
    List (String × String) :=
  if d.any (fun p => p.1 = k) then
    d.map (fun p => if p.1 = k then (k, v) else p)
  else d ++ [(k, v)]

/-- `load_nse_equity_list` (nse_equity_matcher.py): an exception from
reading the CSV is caught and the empty dictionary returned; on success
the dictionary maps each uppercased, stripped company name to its
stripped symbol.  A raw row is a `(SYMBOL, NAME OF COMPANY)` pair. -/
def load_nse_equity_list (raw : Except String (List (String × String))) :
    List (String × String) :=
  match raw with
  | .error _ => []
  | .ok rows => rows.foldl (fun d row =>
      dictInsert d (pyUpper (pyStrip row.2)) (pyStrip row.1)) []

/-- **C4, counterexample.** A failure in `load_holdings_data` does
propagate to the caller: the `except` clause ends in `raise`, so the
read error comes back as an exception, not as an empty result. -/
theorem load_holdings_failure_propagates_counterexample :
    load_holdings_data (Except.error "read_excel failed") =
      Except.error "read_excel failed" ∧
    (load_holdings_data (Except.error "read_excel failed")).isOk = false :=
  ⟨rfl, rfl⟩

/-- **C4, amended.** The fetch and exchange-listing stages convert an
exception into an empty result, and a failed ticker resolution becomes a
failed-list entry rather than an exception; but `load_holdings_data`
re-raises, so its failure propagates to the caller. -/
theorem stage_failures_are_converted_except_holdings_load
    (e : String) (vt : List (String × String)) (probe : String → Bool)
    (name : String) (inv : String) (qty v : ℚ)
    (hfail : find_working_ticker vt probe name = none) :
    fetch_stock_historical_data (Except.error e) = [] ∧
    load_nse_equity_list (Except.error e) = [] ∧
    load_holdings_data (Except.error e) = Except.error e ∧
    (resolve_all_tickers [⟨inv, name, qty, v⟩] vt probe).2 = [name] := by
  refine ⟨rfl, rfl, rfl, ?_⟩
  unfold resolve_all_tickers
  simp [dedupFirst, dedupFirstAux, hfail]

/-- Witness for the amended C4 at a concrete input. -/
theorem stage_failures_are_converted_except_holdings_load_witness :
    fetch_stock_historical_data (Except.error "boom") = [] ∧
    load_nse_equity_list (Except.error "boom") = [] ∧
    load_holdings_data (Except.error "boom") = Except.error "boom" ∧
    (resolve_all_tickers [⟨"A", "ZZZ", 1, 1⟩] [] (fun _ => false)).2 =
      ["ZZZ"] :=
  stage_failures_are_converted_except_holdings_load "boom" [] (fun _ => false)
    "ZZZ" "A" 1 1 (by decide)

theorem resolve_foldl_spec (vt : List (String × String))
    (probe : String → Bool) (names : List String)
    (s0 : List (String × String)) (f0 : List String) :
    names.foldl
      (fun st name =>
        match find_working_ticker vt probe name with
        | some t => (st.1 ++ [(name, t)], st.2)
        | none => (st.1, st.2 ++ [name]))
      (s0, f0) =
    (s0 ++ names.filterMap (fun n =>
        (find_working_ticker vt probe n).map (fun t => (n, t))),
     f0 ++ names.filter (fun n => (find_working_ticker vt probe n).isNone)) := by
  induction names generalizing s0 f0 with
  | nil => simp
  | cons n t ih =>
      rw [List.foldl_cons]
      cases h : find_working_ticker vt probe n with
      | some tk =>
          dsimp only
          rw [ih]
          simp [List.filterMap_cons, List.filter_cons, h]
      | none =>
          dsimp only
          rw [ih]
          simp [List.filterMap_cons, List.filter_cons, h]

theorem map_fst_filterMap_resolved (F : String → Option String)
    (names : List String) :
    (names.filterMap (fun n => (F n).map (fun t => (n, t)))).map Prod.fst =
      names.filter (fun n => (F n).isSome) := by
  induction names with
  | nil => rfl
  | cons n t ih =>
      cases h : F n with
      | some tk => simp [List.filterMap_cons, List.filter_cons, h, ih]
      | none => simp [List.filterMap_cons, List.filter_cons, h, ih]

theorem length_filter_partition (names : List String) (p : String → Bool) :
    (names.filter p).length + (names.filter (fun n => ! p n)).length =
      names.length := by
  induction names with
  | nil => rfl
  | cons n t ih =>
      by_cases h : p n
      · simp [List.filter_cons, h]
        omega
      · simp [List.filter_cons, h]
        omega

/-- **C6.** `resolve_all_tickers` partitions the unique security names:
the success map's keys are exactly the names whose single
`find_working_ticker` attempt succeeds, the failed list is exactly the
names whose attempt fails (so a name on the failed list got no further
attempt), no name is in both, and the counts add up to the number of
unique names. -/
theorem resolve_all_tickers_partition (holdings : List HoldingRow)
    (vt : List (String × String)) (probe : String → Bool) :
    ((resolve_all_tickers holdings vt probe).1.map Prod.fst =
      (dedupFirst (holdings.map (·.security))).filter
        (fun n => (find_working_ticker vt probe n).isSome)) ∧
    ((resolve_all_tickers holdings vt probe).2 =
      (dedupFirst (holdings.map (·.security))).filter
        (fun n => (find_working_ticker vt probe n).isNone)) ∧
    (∀ n, n ∈ dedupFirst (holdings.map (·.security)) ↔
      (n ∈ (resolve_all_tickers holdings vt probe).1.map Prod.fst ∨
       n ∈ (resolve_all_tickers holdings vt probe).2)) ∧
    (∀ n, ¬ (n ∈ (resolve_all_tickers holdings vt probe).1.map Prod.fst ∧
             n ∈ (resolve_all_tickers holdings vt probe).2)) ∧
    ((resolve_all_tickers holdings vt probe).1.length +
      (resolve_all_tickers holdings vt probe).2.length =
      (dedupFirst (holdings.map (·.security))).length) := by
  have hres : resolve_all_tickers holdings vt probe =
      ((dedupFirst (holdings.map (·.security))).filterMap (fun n =>
          (find_working_ticker vt probe n).map (fun t => (n, t))),
       (dedupFirst (holdings.map (·.security))).filter
          (fun n => (find_working_ticker vt probe n).isNone)) := by
    unfold resolve_all_tickers
    rw [resolve_foldl_spec]
    simp
  have hmapfst : (resolve_all_tickers holdings vt probe).1.map Prod.fst =
      (dedupFirst (holdings.map (·.security))).filter
        (fun n => (find_working_ticker vt probe n).isSome) := by
    rw [hres]
    exact map_fst_filterMap_resolved (find_working_ticker vt probe) _
  refine ⟨hmapfst, by rw [hres], ?_, ?_, ?_⟩
  · intro n
    rw [hmapfst, hres]
    constructor
    · intro hn
      cases h : find_working_ticker vt probe n with
      | some tk =>
          exact Or.inl (List.mem_filter.mpr ⟨hn, by simp [h]⟩)
      | none =>
          exact Or.inr (List.mem_filter.mpr ⟨hn, by simp [h]⟩)
    · intro hor
      rcases hor with h | h
      · exact (List.mem_filter.mp h).1
      · exact (List.mem_filter.mp h).1
  · intro n hn
    rw [hmapfst] at hn
    rw [hres] at hn
    have h1 := (List.mem_filter.mp hn.1).2
    have h2 := (List.mem_filter.mp hn.2).2
    simp only [Option.isSome_iff_exists, Option.isNone_iff_eq_none] at h1 h2
    obtain ⟨t, ht⟩ := by simpa using h1
    rw [(by simpa using h2 : find_working_ticker vt probe n = none)] at ht
    cases ht
  · have hlen1 : (resolve_all_tickers holdings vt probe).1.length =
        ((dedupFirst (holdings.map (·.security))).filter
          (fun n => (find_working_ticker vt probe n).isSome)).length := by
      rw [← hmapfst, List.length_map]
    rw [hlen1, hres]
    have hcongr : (dedupFirst (holdings.map (·.security))).filter
          (fun n => (find_working_ticker vt probe n).isNone) =
        (dedupFirst (holdings.map (·.security))).filter
          (fun n => ! (find_working_ticker vt probe n).isSome) := by
      apply List.filter_congr
      intro n hn
      cases find_working_ticker vt probe n <;> simp
    rw [hcongr]
    exact length_filter_partition _ _

/-- **C3, counterexample.** Live ticker resolution does not consult the
exchange listing at all: with an empty validated table, a name whose
cleaned form matches a listing entry exactly, and a probe that accepts a
heuristic first-word guess, `find_working_ticker` returns the heuristic
guess, while the resolution chain the claim describes (curated table,
then exact listing match, then fuzzy, then heuristics) would return the
listing's symbol. -/
theorem ticker_resolution_order_counterexample :
    find_working_ticker [] (fun t => t == "FOO.NS") "FOO LIMITED" =
      some "FOO.NS" ∧
    claimed_ticker_resolution [] [("FOO LIMITED", "FOOSYM")]
      (fun t => t == "FOO.NS") "FOO LIMITED" = some "FOOSYM" ∧
    ("FOO.NS" : String) ≠ "FOOSYM" :=
  ⟨by decide, by decide, by decide⟩

/-- **C3, amended.** `find_working_ticker` consults only two sources, in
order: the curated validated table (accepted only when the live probe
confirms the ticker) and then the first three heuristic name variations
tested by the probe; the exact-then-fuzzy match against the official
listing lives in the separate offline matcher `find_best_match`, which
does try exact matching before any fuzzy scoring. -/
theorem ticker_resolution_order (vt nse_dict : List (String × String))
    (probe : String → Bool) (name : String) (threshold : ℚ)
    (p : String × String) :
    (∀ t, get_validated_ticker vt name = some t → probe t = true →
      find_working_ticker vt probe name = some t) ∧
    (∀ t, get_validated_ticker vt name = some t → probe t = false →
      find_working_ticker vt probe name = variationSearch probe name) ∧
    (get_validated_ticker vt name = none →
      find_working_ticker vt probe name = variationSearch probe name) ∧
    (nse_dict.find?
        (fun q => clean_company_name q.1 = clean_company_name name) = some p →
      find_best_match name nse_dict threshold = (some p.2, 1, "exact")) := by
  refine ⟨?_, ?_, ?_, ?_⟩
  · intro t hv hp
    unfold find_working_ticker
    rw [hv]
    simp [hp]
  · intro t hv hp
    unfold find_working_ticker
    rw [hv]
    simp [hp]
  · intro hv
    unfold find_working_ticker
    rw [hv]
  · intro hfind
    unfold find_best_match
    rw [hfind]

/-- Witness for the amended C3 at concrete inputs: a validated entry
confirmed by the probe wins, and an exact listing match short-circuits
the fuzzy scorer. -/
theorem ticker_resolution_order_witness :
    find_working_ticker [("N", "T")] (fun _ => true) "N" = some "T" ∧
    find_best_match "N" [("N", "S")] (4/5) = (some "S", 1, "exact") :=
  ⟨(ticker_resolution_order [("N", "T")] [("N", "S")] (fun _ => true) "N"
      (4/5) ("N", "S")).1 "T" (by decide) rfl,
   (ticker_resolution_order [("N", "T")] [("N", "S")] (fun _ => true) "N"
      (4/5) ("N", "S")).2.2.2 (by decide)⟩

theorem foldl_best_snd (f : String × String → ℚ)
    (l : List (String × String)) (st : Option String × ℚ) :
    (l.foldl (fun st p => if f p > st.2 then (some p.2, f p) else st) st).2 =
      (l.map f).foldl max st.2 := by
  induction l generalizing st with
  | nil => rfl
  | cons a t ih =>
      rw [List.foldl_cons, List.map_cons, List.foldl_cons]
      by_cases h : f a > st.2
      · rw [if_pos h, ih]
        congr 1
        exact (max_eq_right (le_of_lt h)).symm
      · rw [if_neg h, ih]
        congr 1
        exact (max_eq_left (not_lt.mp h)).symm

theorem foldl_best_attains (f : String × String → ℚ)
    (l : List (String × String)) (st : Option String × ℚ) :
    (l.foldl (fun st p => if f p > st.2 then (some p.2, f p) else st) st) = st ∨
    ∃ p ∈ l,
      (l.foldl (fun st p => if f p > st.2 then (some p.2, f p) else st) st).1 =
        some p.2 ∧
      (l.foldl (fun st p => if f p > st.2 then (some p.2, f p) else st) st).2 =
        f p := by
  induction l generalizing st with
  | nil => exact Or.inl rfl
  | cons a t ih =>
      rw [List.foldl_cons]
      by_cases h : f a > st.2
      · rw [if_pos h]
        rcases ih (some a.2, f a) with heq | ⟨p, hp, h1, h2⟩
        · refine Or.inr ⟨a, List.mem_cons_self a t, ?_, ?_⟩
          · rw [heq]
          · rw [heq]
        · exact Or.inr ⟨p, List.mem_cons_of_mem a hp, h1, h2⟩
      · rw [if_neg h]
        rcases ih st with heq | ⟨p, hp, h1, h2⟩
        · exact Or.inl heq
        · exact Or.inr ⟨p, List.mem_cons_of_mem a hp, h1, h2⟩

/-- **C5, counterexample.** The fuzzy acceptance is not strict: with the
best similarity score exactly at the threshold (`ABCDE` against listing
name `ABCDX`, four matched characters out of ten, score `4/5`),
`find_best_match` returns the fuzzy match, while a strictly-above rule
would return no match. -/
theorem fuzzy_threshold_strictness_counterexample :
    find_best_match "ABCDE" [("ABCDX", "S")] (4/5) = (some "S", 4/5, "fuzzy") ∧
    ¬ ((4/5 : ℚ) > 4/5) := by
  constructor
  · have hA : clean_company_name "ABCDE" = "ABCDE" := by decide
    have hB : clean_company_name "ABCDX" = "ABCDX" := by decide
    have hm : matchesTotal "ABCDE".data "ABCDX".data = 4 := by decide
    have hT : "ABCDE".data.length + "ABCDX".data.length = 10 := by decide
    have hscore : similarity_score "ABCDE" "ABCDX" = 4/5 := by
      unfold similarity_score
      rw [hm, hT]
      norm_num
    have hfind : ([("ABCDX", "S")].find?
        (fun p => clean_company_name p.1 = clean_company_name "ABCDE")) =
          none := by decide
    unfold find_best_match
    rw [hfind]
    dsimp only
    rw [List.foldl_cons, List.foldl_nil, hA, hB, hscore]
    norm_num
  · norm_num

/-- **C5, amended.** When no exact cleaned-name match exists,
`find_best_match` returns a fuzzy result exactly when the best
similarity score over the cleaned listing names is at or above the
threshold (`>=`, not strictly above); the returned symbol then attains
that best score, and below the threshold the result is
`(None, 0, 'no_match')`. -/
theorem find_best_match_fuzzy_iff_threshold (name : String)
    (nse_dict : List (String × String))
    (hnoex : ∀ p ∈ nse_dict,
      clean_company_name p.1 ≠ clean_company_name name) :
    ((find_best_match name nse_dict (4/5)).2.2 = "fuzzy" ↔
      4/5 ≤ bestFuzzyScore name nse_dict) ∧
    ((find_best_match name nse_dict (4/5)).2.2 = "fuzzy" →
      (find_best_match name nse_dict (4/5)).2.1 =
        bestFuzzyScore name nse_dict ∧
      ∃ p ∈ nse_dict, (find_best_match name nse_dict (4/5)).1 = some p.2 ∧
        similarity_score (clean_company_name name) (clean_company_name p.1) =
          bestFuzzyScore name nse_dict) ∧
    (bestFuzzyScore name nse_dict < 4/5 →
      find_best_match name nse_dict (4/5) = (none, 0, "no_match")) := by
  have hfind : (nse_dict.find?
      (fun p => clean_company_name p.1 = clean_company_name name)) = none :=
    List.find?_eq_none.mpr (fun p hp => by simpa using hnoex p hp)
  have hbest2 : (nse_dict.foldl
      (fun (st : Option String × ℚ) p =>
        if similarity_score (clean_company_name name) (clean_company_name p.1) >
            st.2 then
          (some p.2,
            similarity_score (clean_company_name name) (clean_company_name p.1))
        else st) (none, 0)).2 = bestFuzzyScore name nse_dict := by
    rw [foldl_best_snd (fun p =>
      similarity_score (clean_company_name name) (clean_company_name p.1))]
    rfl
  constructor
  · unfold find_best_match
    rw [hfind]
    dsimp only
    by_cases hth : (4 : ℚ)/5 ≤ bestFuzzyScore name nse_dict
    · rw [if_pos (by rw [hbest2]; exact hth)]
      simpa using hth
    · rw [if_neg (by rw [hbest2]; exact hth)]
      constructor
      · intro hcontra
        exact absurd hcontra (by decide)
      · intro hge
        exact absurd hge hth
  constructor
  · intro hfz
    have hth : 4/5 ≤ bestFuzzyScore name nse_dict := by
      by_contra hlt
      revert hfz
      unfold find_best_match
      rw [hfind]
      dsimp only
      rw [if_neg (by rw [hbest2]; exact hlt)]
      decide
    constructor
    · unfold find_best_match
      rw [hfind]
      dsimp only
      rw [if_pos (by rw [hbest2]; exact hth)]
      exact hbest2
    · rcases foldl_best_attains (fun p =>
        similarity_score (clean_company_name name) (clean_company_name p.1))
          nse_dict (none, 0) with heq | ⟨p, hp, h1, h2⟩
      · exfalso
        have : bestFuzzyScore name nse_dict = 0 := by
          rw [← hbest2, heq]
        rw [this] at hth
        norm_num at hth
      · refine ⟨p, hp, ?_, ?_⟩
        · unfold find_best_match
          rw [hfind]
          dsimp only
          rw [if_pos (by rw [hbest2]; exact hth)]
          exact h1
        · rw [← h2, hbest2.symm]
  · intro hlt
    unfold find_best_match
    rw [hfind]
    dsimp only
    rw [if_neg (by rw [hbest2]; exact not_le.mpr hlt)]

/-- Witness for the amended C5 at a concrete input with no exact
match. -/
theorem find_best_match_fuzzy_iff_threshold_witness :
    ((find_best_match "ABCDE" [("ABCDX", "S")] (4/5)).2.2 = "fuzzy" ↔
      4/5 ≤ bestFuzzyScore "ABCDE" [("ABCDX", "S")]) ∧
    ((find_best_match "ABCDE" [("ABCDX", "S")] (4/5)).2.2 = "fuzzy" →
      (find_best_match "ABCDE" [("ABCDX", "S")] (4/5)).2.1 =
        bestFuzzyScore "ABCDE" [("ABCDX", "S")] ∧
      ∃ p ∈ [("ABCDX", "S")],
        (find_best_match "ABCDE" [("ABCDX", "S")] (4/5)).1 = some p.2 ∧
        similarity_score (clean_company_name "ABCDE")
            (clean_company_name p.1) =
          bestFuzzyScore "ABCDE" [("ABCDX", "S")]) ∧
    (bestFuzzyScore "ABCDE" [("ABCDX", "S")] < 4/5 →
      find_best_match "ABCDE" [("ABCDX", "S")] (4/5) =
        (none, 0, "no_match")) :=
  find_best_match_fuzzy_iff_threshold "ABCDE" [("ABCDX", "S")] (by decide)

end NiftyComparision
